import Mathlib

/-!
Shallow embedding of the retrieval/context-assembly core of the repository:
`src/models/rag_engine.py` (class `RAGEngine`: `load_and_process_documents`,
`get_relevant_context`) and `src/tools/query_expander.py` (class
`QueryExpander`: `expand_query`, pydantic model `ExpandedQueries`).

External collaborators (the Chroma vector store's similarity search, the
LangChain text splitter, the OpenAI structured-generation call) are passed in
as explicit parameters: a function for the similarity search, a per-document
splitting function, and an `Option ExpandedQueries` for the outcome of the
structured-generation call (`none` = the call raised or its parsed payload was
empty, `some e` = it parsed into `e`).

Python dicts preserve insertion order: a key keeps the position of its first
insertion, later writes only replace the value.  The two dict builds of
`get_relevant_context` (dedup-by-page-content and URL frequency counting) are
modelled as association lists built left to right with exactly that update
rule, and Python's stable `sorted(..., key=lambda x: x[1], reverse=True)` is
modelled as a stable descending insertion sort on the count.
-/

namespace Rag

/-- A retrieved chunk as LangChain's `Document`: `page_content` plus the
`url` metadata entry, which may be absent (`doc.metadata.get("url", ...)`). -/
structure Doc where
  page_content : String
  url : Option String
  deriving Repr, DecidableEq

/-- pydantic model `ExpandedQueries` of `src/tools/query_expander.py`:
`queries: List[str]`, `search_strategy: str` (no length constraint). -/
structure ExpandedQueries where
  queries : List String
  search_strategy : String
  deriving Repr, DecidableEq

/-- Embeds `QueryExpander.expand_query`: one attempt at the structured-generation
call; any exception or an empty parsed payload (`callResult = none`) falls
back to the original query with a fixed strategy string; a parsed payload is
returned unchanged. -/
def expand_query (callResult : Option ExpandedQueries) (original_query : String) :
    ExpandedQueries :=
  match callResult with
  | some expanded => expanded
  | none =>
      { queries := [original_query],
        search_strategy := "Using original query due to expansion error" }

/-- The fields of `config.rag` that `RAGEngine` reads. -/
structure RagConfig where
  num_chunks : Nat
  max_links : Nat
  use_query_expansion : Bool
  min_doc_length : Nat
  min_chunk_length : Nat
  deriving Repr, DecidableEq

/-- Python's `num_chunks or config.rag.num_chunks`: `None` and `0` are both
falsy, so either is replaced by the configured default. -/
def pyOrDefault (arg : Option Nat) (dflt : Nat) : Nat :=
  match arg with
  | none => dflt
  | some n => if n = 0 then dflt else n

/-- The active query set (step 1 of retrieval): the expanded queries when
`config.rag.use_query_expansion`, else just the original query. -/
def activeQueries (useExpansion : Bool) (callResult : Option ExpandedQueries)
    (query : String) : List String :=
  if useExpansion then (expand_query callResult query).queries else [query]

/-- Pooling (step 2): per-query `similarity_search(q, k)` result lists
appended in query order (`all_docs.extend(docs)`). -/
def pooledDocs (search : String → Nat → List Doc) (queries : List String)
    (k : Nat) : List Doc :=
  queries.flatMap (fun q => search q k)

/-- Python's `d.get(k)` on an insertion-ordered dict modelled as an
association list. -/
def dictGet {β : Type} (m : List (String × β)) (k : String) : Option β :=
  (m.find? (fun p => p.1 = k)).map Prod.snd

/-- Python's `d[k] = v` on an insertion-ordered dict: an existing key keeps
its position and gets the new value, a new key is appended at the end. -/
def dictWrite {β : Type} (m : List (String × β)) (k : String) (v : β) :
    List (String × β) :=
  if m.any (fun p => p.1 = k) then
    m.map (fun p => if p.1 = k then (k, v) else p)
  else m ++ [(k, v)]

/-- The dict comprehension keyed by `doc.page_content` over `all_docs`, as an insertion-ordered
association list (a later doc with the same text overwrites the value but
keeps the key's position). -/
def contentDict (docs : List Doc) : List (String × Doc) :=
  docs.foldl (fun m d => dictWrite m d.page_content d) []

/-- Embeds `unique_docs`: the values of the dedup dict, in key order. -/
def uniqueDocs (docs : List Doc) : List Doc :=
  (contentDict docs).map Prod.snd

/-- Python's `s.startswith(p)`: `p` is a character-wise prefix of `s`. -/
def pyStartsWith (s p : String) : Bool :=
  p.data.isPrefixOf s.data

/-- The effective URL of a result: `doc.metadata.get("url", "https://itmo.ru")`. -/
def effUrl (d : Doc) : String :=
  d.url.getD "https://itmo.ru"

/-- One step of the counting loop:
`url_frequency[url] = url_frequency.get(url, 0) + 1`. -/
def countStep (m : List (String × Nat)) (u : String) : List (String × Nat) :=
  dictWrite m u ((dictGet m u).getD 0 + 1)

/-- The URL frequency dict over the full pooled list: each doc's effective
URL is counted iff `url.startswith("http")`. -/
def url_frequency (docs : List Doc) : List (String × Nat) :=
  docs.foldl
    (fun m d => if pyStartsWith (effUrl d) "http" then countStep m (effUrl d) else m)
    []

/-- The sequence of URLs that the counting loop actually counts, in pooled
order: each doc's effective URL, kept iff it starts with `"http"`. -/
def countedUrls (docs : List Doc) : List String :=
  docs.filterMap
    (fun d => if pyStartsWith (effUrl d) "http" then some (effUrl d) else none)

/-- Stable descending insertion by count: the new element goes after every
element of strictly larger count and before the rest. -/
def insertDesc (x : String × Nat) : List (String × Nat) → List (String × Nat)
  | [] => [x]
  | y :: ys => if x.2 < y.2 then y :: insertDesc x ys else x :: y :: ys

/-- Python's stable `sorted(url_frequency.items(), key=lambda x: x[1],
reverse=True)`: sort by descending count, ties keep dict (first-counted)
order. -/
def sortDescByCount (l : List (String × Nat)) : List (String × Nat) :=
  l.foldr insertDesc []

/-- The `all_docs` list a retrieval call pools: per-query search results for
the active query set, with `num_chunks` already defaulted. -/
def retrievalPool (cfg : RagConfig) (search : String → Nat → List Doc)
    (callResult : Option ExpandedQueries) (query : String)
    (num_chunks_arg : Option Nat) : List Doc :=
  pooledDocs search (activeQueries cfg.use_query_expansion callResult query)
    (pyOrDefault num_chunks_arg cfg.num_chunks)

/-- Embeds `RAGEngine.get_relevant_context`.  Here `vector_store = none` models an
engine whose vector store was never initialized; `some search` supplies the
store's `similarity_search`.  Returns `(contexts, urls)` on success. -/
def get_relevant_context (cfg : RagConfig)
    (vector_store : Option (String → Nat → List Doc))
    (callResult : Option ExpandedQueries) (query : String)
    (num_chunks_arg : Option Nat) :
    Except String (List String × List String) :=
  let num_chunks := pyOrDefault num_chunks_arg cfg.num_chunks
  match vector_store with
  | none =>
      .error "Vector store not initialized. Call load_and_process_documents first."
  | some search =>
      let all_docs := retrievalPool cfg search callResult query num_chunks_arg
      let top_docs := (uniqueDocs all_docs).take num_chunks
      let contexts := top_docs.map Doc.page_content
      let urls :=
        ((sortDescByCount (url_frequency all_docs)).take cfg.max_links).map
          Prod.fst
      .ok (contexts, urls)

/-- One corpus row of the ingestion CSV: `content` and `url` columns. -/
structure Row where
  content : String
  url : String
  deriving Repr, DecidableEq

/-- The engine's persistent state: the on-disk Chroma store (its chunk list)
and the in-memory `vector_store` handle. -/
structure EngineState where
  persisted : Option (List Doc)
  vector_store : Option (List Doc)
  deriving Repr, DecidableEq

/-- The processing path of `load_and_process_documents` (reached both on
fresh ingestion and after a failed load of an existing store): rows shorter
than `min_doc_length` are dropped, survivors are split, chunks shorter than
`min_chunk_length` are dropped, and the result is persisted as the new
store (`Chroma.from_documents(..., persist_directory=...)`). -/
def processAndPersist (cfg : RagConfig) (splitter : Doc → List Doc)
    (rows : List Row) : EngineState :=
  let df := rows.filter (fun r => cfg.min_doc_length ≤ r.content.length)
  let documents := df.map (fun r => Doc.mk r.content (some r.url))
  let chunks := documents.flatMap splitter
  let chunks := chunks.filter (fun c => cfg.min_chunk_length ≤ c.page_content.length)
  { persisted := some chunks, vector_store := some chunks }

/-- Embeds `RAGEngine.load_and_process_documents`.  Here `splitter` is the
external `RecursiveCharacterTextSplitter.split_documents` restricted to one
document (it splits each document independently, copying its metadata onto
every chunk), and `loadFails` is the outcome of the external `Chroma` load
call on an existing store.  If the persist directory already holds a store
and loading it succeeds, the store is loaded and the method returns; if
loading raises, the except branch logs a warning and execution falls
through to re-process and re-persist, exactly like the fresh-ingestion
path. -/
def load_and_process_documents (cfg : RagConfig) (splitter : Doc → List Doc)
    (loadFails : Bool) (st : EngineState) (rows : List Row) : EngineState :=
  match st.persisted with
  | some store =>
      if loadFails then processAndPersist cfg splitter rows
      else { st with vector_store := some store }
  | none => processAndPersist cfg splitter rows

/-- Spec-side dedup (§4.3 step 3): keep the first occurrence of each chunk
text, in order. -/
def dedupKeepFirst (l : List String) : List String :=
  l.foldl (fun acc x => if x ∈ acc then acc else acc ++ [x]) []

/-- Spec-side frequency (§4.3 step 4): the number of results in the pooled
list whose sourceUrl is `u`. -/
def specFreq (docs : List Doc) (u : String) : Nat :=
  (docs.filter (fun d => d.url = some u)).length

/-- Spec-side first-appearance position of URL `u` in the pooled list. -/
def firstAppear (docs : List Doc) (u : String) : Nat :=
  docs.findIdx (fun d => d.url = some u)

/-- The counting loop run over a bare list of URLs; `url_frequency docs`
is exactly `histoOf (countedUrls docs)`. -/
def histoOf (l : List String) : List (String × Nat) :=
  l.foldl countStep []

/-! ### Concrete fixtures used to instantiate theorems with hypotheses -/

/-- A sample configuration: `numChunks = 2`, `maxLinks = 3`, expansion off,
`minDocLength = 400`, `minChunkLength = 300`. -/
def sampleCfg : RagConfig :=
  ⟨2, 3, false, 400, 300⟩

/-- A sample similarity search returning a pool with a duplicated text. -/
def sampleSearch : String → Nat → List Doc := fun _ _ =>
  [Doc.mk "A" (some "https://a"), Doc.mk "B" (some "https://b"),
    Doc.mk "A" (some "https://c")]

/-- A sample similarity search returning a pool with a repeated URL. -/
def sampleSearch2 : String → Nat → List Doc := fun _ _ =>
  [Doc.mk "X" (some "https://x"), Doc.mk "Y" (some "https://y"),
    Doc.mk "Z" (some "https://x")]

/-- A sample pool with two missing-URL entries. -/
def sampleDocs3 : List Doc :=
  [Doc.mk "A" none, Doc.mk "B" (some "https://a"), Doc.mk "C" none]

/-! ### Dict lemmas: keys of an insertion-ordered dict -/

theorem any_key_iff {β : Type} (m : List (String × β)) (k : String) :
    (m.any (fun p => p.1 = k)) = true ↔ k ∈ m.map Prod.fst := by
  rw [List.any_eq_true]
  constructor
  · rintro ⟨p, hp, hpk⟩
    exact List.mem_map.mpr ⟨p, hp, of_decide_eq_true hpk⟩
  · intro h
    obtain ⟨p, hp, rfl⟩ := List.mem_map.mp h
    exact ⟨p, hp, by simp⟩

theorem map_fst_dictWrite {β : Type} (m : List (String × β)) (k : String) (v : β) :
    (dictWrite m k v).map Prod.fst =
      if k ∈ m.map Prod.fst then m.map Prod.fst else m.map Prod.fst ++ [k] := by
  unfold dictWrite
  by_cases h : k ∈ m.map Prod.fst
  · rw [if_pos ((any_key_iff m k).mpr h), if_pos h, List.map_map]
    refine List.map_congr_left fun p _ => ?_
    by_cases hpk : p.1 = k <;> simp [hpk]
  · rw [if_neg (fun ha => h ((any_key_iff m k).mp ha)), if_neg h]
    simp

theorem mem_dictWrite {β : Type} {m : List (String × β)} {k : String} {v : β}
    {p : String × β} (hp : p ∈ dictWrite m k v) :
    p = (k, v) ∨ (p ∈ m ∧ p.1 ≠ k) := by
  unfold dictWrite at hp
  by_cases h : (m.any (fun p => p.1 = k)) = true
  · rw [if_pos h] at hp
    obtain ⟨q, hq, hqp⟩ := List.mem_map.mp hp
    by_cases hqk : q.1 = k
    · left; rw [← hqp]; simp [hqk]
    · right; rw [← hqp]; simp [hqk, hqk]
      exact hq
  · rw [if_neg h] at hp
    rcases List.mem_append.mp hp with hm | hx
    · right
      refine ⟨hm, fun hk => h ?_⟩
      exact List.any_eq_true.mpr ⟨p, hm, by simp [hk]⟩
    · left; simpa using hx

theorem dictGet_eq_none {β : Type} {m : List (String × β)} {k : String}
    (h : k ∉ m.map Prod.fst) : dictGet m k = none := by
  unfold dictGet
  rw [List.find?_eq_none.mpr, Option.map_none']
  intro p hp hk
  exact h (List.mem_map.mpr ⟨p, hp, of_decide_eq_true hk⟩)

theorem dictGet_of_mem {β : Type} {m : List (String × β)} {k : String} {c : β}
    (hnd : (m.map Prod.fst).Nodup) (hc : (k, c) ∈ m) : dictGet m k = some c := by
  induction m with
  | nil => cases hc
  | cons p t ih =>
      rw [List.map_cons] at hnd
      rcases List.mem_cons.mp hc with h | h
      · unfold dictGet
        rw [List.find?_cons_of_pos _ (by simp [← h])]
        simp [← h]
      · have hpk : p.1 ≠ k := by
          intro hk
          exact (List.nodup_cons.mp hnd).1
            (hk ▸ List.mem_map.mpr ⟨(k, c), h, rfl⟩)
        unfold dictGet
        rw [List.find?_cons_of_neg _ (by simp [hpk])]
        exact ih (List.nodup_cons.mp hnd).2 h

/-! ### Spec-side dedup lemmas -/

theorem dedupKeepFirst_append_singleton (l : List String) (x : String) :
    dedupKeepFirst (l ++ [x]) =
      if x ∈ dedupKeepFirst l then dedupKeepFirst l
      else dedupKeepFirst l ++ [x] := by
  simp [dedupKeepFirst, List.foldl_append]

theorem mem_dedupKeepFirst {a : String} {l : List String} :
    a ∈ dedupKeepFirst l ↔ a ∈ l := by
  induction l using List.reverseRecOn generalizing a with
  | nil => simp [dedupKeepFirst]
  | append_singleton t x ih =>
      rw [dedupKeepFirst_append_singleton]
      by_cases hx : x ∈ dedupKeepFirst t
      · rw [if_pos hx]
        constructor
        · intro h
          exact List.mem_append.mpr (Or.inl (ih.mp h))
        · intro h
          rcases List.mem_append.mp h with h1 | h2
          · exact ih.mpr h1
          · rw [List.mem_singleton] at h2
            subst h2
            exact hx
      · rw [if_neg hx]
        simp [ih]

theorem nodup_dedupKeepFirst (l : List String) : (dedupKeepFirst l).Nodup := by
  induction l using List.reverseRecOn with
  | nil => simp [dedupKeepFirst]
  | append_singleton t x ih =>
      rw [dedupKeepFirst_append_singleton]
      by_cases hx : x ∈ dedupKeepFirst t
      · rwa [if_pos hx]
      · rw [if_neg hx]
        simp [List.nodup_append, ih, hx]

theorem pairwise_indexOf_dedupKeepFirst (l : List String) :
    (dedupKeepFirst l).Pairwise (fun a b => l.indexOf a < l.indexOf b) := by
  induction l using List.reverseRecOn with
  | nil => simp [dedupKeepFirst]
  | append_singleton t x ih =>
      rw [dedupKeepFirst_append_singleton]
      by_cases hx : x ∈ dedupKeepFirst t
      · rw [if_pos hx]
        refine ih.imp_of_mem fun {a b} ha hb hab => ?_
        rw [List.indexOf_append_of_mem (mem_dedupKeepFirst.mp ha),
          List.indexOf_append_of_mem (mem_dedupKeepFirst.mp hb)]
        exact hab
      · rw [if_neg hx]
        rw [List.pairwise_append]
        refine ⟨ih.imp_of_mem fun {a b} ha hb hab => ?_, by simp, ?_⟩
        · rw [List.indexOf_append_of_mem (mem_dedupKeepFirst.mp ha),
            List.indexOf_append_of_mem (mem_dedupKeepFirst.mp hb)]
          exact hab
        · intro a ha b hb
          rw [List.mem_singleton] at hb
          subst hb
          have hat : a ∈ t := mem_dedupKeepFirst.mp ha
          have hbt : b ∉ t := fun hbt => hx (mem_dedupKeepFirst.mpr hbt)
          rw [List.indexOf_append_of_mem hat, List.indexOf_append_of_not_mem hbt]
          calc t.indexOf a < t.length := List.indexOf_lt_length.mpr hat
            _ ≤ t.length + List.indexOf b [b] := Nat.le_add_right _ _

/-! ### The dedup dict of `get_relevant_context` -/

theorem contentDict_append_singleton (docs : List Doc) (d : Doc) :
    contentDict (docs ++ [d]) =
      dictWrite (contentDict docs) d.page_content d := by
  simp [contentDict, List.foldl_append]

theorem map_fst_contentDict (docs : List Doc) :
    (contentDict docs).map Prod.fst =
      dedupKeepFirst (docs.map Doc.page_content) := by
  induction docs using List.reverseRecOn with
  | nil => simp [contentDict, dedupKeepFirst]
  | append_singleton t d ih =>
      rw [contentDict_append_singleton, map_fst_dictWrite, List.map_append,
        List.map_singleton, dedupKeepFirst_append_singleton, ih]

theorem snd_page_content_contentDict {docs : List Doc} {p : String × Doc}
    (hp : p ∈ contentDict docs) : p.2.page_content = p.1 := by
  induction docs using List.reverseRecOn with
  | nil => cases hp
  | append_singleton t d ih =>
      rw [contentDict_append_singleton] at hp
      rcases mem_dictWrite hp with h | ⟨h, _⟩
      · rw [h]
      · exact ih h

theorem map_page_content_uniqueDocs (docs : List Doc) :
    (uniqueDocs docs).map Doc.page_content =
      dedupKeepFirst (docs.map Doc.page_content) := by
  rw [uniqueDocs, List.map_map, ← map_fst_contentDict]
  exact List.map_congr_left fun p hp => snd_page_content_contentDict hp

/-! ### The URL frequency dict of `get_relevant_context` -/

theorem url_frequency_eq_histo (docs : List Doc) :
    url_frequency docs = histoOf (countedUrls docs) := by
  rw [url_frequency, histoOf]
  suffices h : ∀ (a : List (String × Nat)),
      docs.foldl
        (fun m d =>
          if pyStartsWith (effUrl d) "http" then countStep m (effUrl d) else m)
        a = (countedUrls docs).foldl countStep a from h []
  induction docs with
  | nil => intro a; rfl
  | cons d t ih =>
      intro a
      by_cases h : pyStartsWith (effUrl d) "http" <;>
        simp [countedUrls, List.filterMap_cons, h, List.foldl_cons] <;>
        exact ih _

theorem histoOf_append_singleton (l : List String) (u : String) :
    histoOf (l ++ [u]) = countStep (histoOf l) u := by
  simp [histoOf, List.foldl_append]

theorem map_fst_histoOf (l : List String) :
    (histoOf l).map Prod.fst = dedupKeepFirst l := by
  induction l using List.reverseRecOn with
  | nil => simp [histoOf, dedupKeepFirst]
  | append_singleton t u ih =>
      rw [histoOf_append_singleton, countStep, map_fst_dictWrite,
        dedupKeepFirst_append_singleton, ih]

theorem count_histoOf {l : List String} {p : String × Nat}
    (hp : p ∈ histoOf l) : p.2 = l.count p.1 := by
  induction l using List.reverseRecOn generalizing p with
  | nil => cases hp
  | append_singleton t u ih =>
      rw [histoOf_append_singleton, countStep] at hp
      have hnd : ((histoOf t).map Prod.fst).Nodup := by
        rw [map_fst_histoOf]
        exact nodup_dedupKeepFirst t
      rcases mem_dictWrite hp with h | ⟨h, hne⟩
      · rw [h]
        by_cases hu : u ∈ (histoOf t).map Prod.fst
        · obtain ⟨q, hq, hqu⟩ := List.mem_map.mp hu
          have hmem : (u, q.2) ∈ histoOf t := by
            rw [← hqu]
            exact hq
          rw [dictGet_of_mem hnd hmem]
          have hq2 : q.2 = t.count q.1 := ih hq
          simp [List.count_append, hq2, hqu]
        · rw [dictGet_eq_none hu]
          have hut : u ∉ t := by
            rw [← mem_dedupKeepFirst, ← map_fst_histoOf]
            exact hu
          simp [List.count_append, List.count_eq_zero.mpr hut]
      · have hpt := ih h
        have hne' : u ≠ p.1 := Ne.symm hne
        simp [List.count_append, hpt, List.count_cons, hne']

/-! ### The stable descending sort -/

theorem mem_insertDesc {y x : String × Nat} {s : List (String × Nat)} :
    y ∈ insertDesc x s ↔ y = x ∨ y ∈ s := by
  induction s with
  | nil => simp [insertDesc]
  | cons z t ih =>
      rw [insertDesc]
      by_cases h : x.2 < z.2
      · rw [if_pos h]
        simp only [List.mem_cons, ih]
        tauto
      · rw [if_neg h]
        exact List.mem_cons

theorem pairwise_insertDesc (Q : (String × Nat) → (String × Nat) → Prop)
    (x : String × Nat) (s : List (String × Nat))
    (hs : s.Pairwise (fun a b => b.2 < a.2 ∨ (a.2 = b.2 ∧ Q a b)))
    (hx : ∀ y ∈ s, Q x y) :
    (insertDesc x s).Pairwise
      (fun a b => b.2 < a.2 ∨ (a.2 = b.2 ∧ Q a b)) := by
  induction s with
  | nil => simp [insertDesc]
  | cons y ys ih =>
      rw [List.pairwise_cons] at hs
      rw [insertDesc]
      by_cases h : x.2 < y.2
      · rw [if_pos h, List.pairwise_cons]
        constructor
        · intro z hz
          rcases mem_insertDesc.mp hz with hzx | hzy
          · subst hzx
            exact Or.inl h
          · exact hs.1 z hzy
        · exact ih hs.2 (fun y' hy' => hx y' (List.mem_cons_of_mem _ hy'))
      · have hyx : y.2 ≤ x.2 := Nat.le_of_not_lt h
        rw [if_neg h, List.pairwise_cons]
        constructor
        · intro z hz
          have hzx2 : z.2 ≤ x.2 := by
            rcases List.mem_cons.mp hz with hzy | hzys
            · subst hzy
              exact hyx
            · rcases hs.1 z hzys with hlt | ⟨heq, _⟩
              · exact le_trans (Nat.le_of_lt hlt) hyx
              · exact le_trans (le_of_eq heq.symm) hyx
          rcases Nat.lt_or_ge z.2 x.2 with hlt | hge
          · exact Or.inl hlt
          · exact Or.inr ⟨Nat.le_antisymm hge hzx2, hx z hz⟩
        · exact List.pairwise_cons.mpr hs

theorem mem_sortDescByCount {y : String × Nat} {l : List (String × Nat)} :
    y ∈ sortDescByCount l ↔ y ∈ l := by
  induction l with
  | nil => simp [sortDescByCount]
  | cons x t ih =>
      show y ∈ insertDesc x (sortDescByCount t) ↔ _
      rw [mem_insertDesc, List.mem_cons, ih]

theorem pairwise_sortDescByCount (Q : (String × Nat) → (String × Nat) → Prop)
    {l : List (String × Nat)} (hl : l.Pairwise Q) :
    (sortDescByCount l).Pairwise
      (fun a b => b.2 < a.2 ∨ (a.2 = b.2 ∧ Q a b)) := by
  induction l with
  | nil => simp [sortDescByCount]
  | cons x t ih =>
      rw [List.pairwise_cons] at hl
      exact pairwise_insertDesc Q x (sortDescByCount t) (ih hl.2)
        (fun y hy => hl.1 y (mem_sortDescByCount.mp hy))

/-! ### Transferring positions from the counted-URL list to the pooled list -/

theorem findIdx_congr {α : Type} {p q : α → Bool} {l : List α}
    (h : ∀ a ∈ l, p a = q a) : l.findIdx p = l.findIdx q := by
  induction l with
  | nil => rfl
  | cons a t ih =>
      rw [List.findIdx_cons, List.findIdx_cons, h a (List.mem_cons_self a t),
        ih (fun b hb => h b (List.mem_cons_of_mem _ hb))]

theorem findIdx_filterMap_lt {α : Type} (f : α → Option String) (l : List α)
    (u v : String) (hu : u ∈ l.filterMap f) (hv : v ∈ l.filterMap f)
    (hlt : (l.filterMap f).indexOf u < (l.filterMap f).indexOf v) :
    l.findIdx (fun a => f a = some u) < l.findIdx (fun a => f a = some v) := by
  induction l with
  | nil => simp at hu
  | cons a t ih =>
      have hne : u ≠ v := by
        intro h
        subst h
        exact lt_irrefl _ hlt
      cases hfa : f a with
      | none =>
          rw [List.filterMap_cons_none hfa] at hu hv hlt
          rw [List.findIdx_cons, List.findIdx_cons]
          have h1 : (decide (f a = some u)) = false := by simp [hfa]
          have h2 : (decide (f a = some v)) = false := by simp [hfa]
          rw [h1, h2]
          simpa using ih hu hv hlt
      | some w =>
          rw [List.filterMap_cons_some hfa] at hu hv hlt
          by_cases hwu : w = u
          · subst hwu
            rw [List.findIdx_cons, List.findIdx_cons]
            have h1 : (decide (f a = some w)) = true := by simp [hfa]
            have h2 : (decide (f a = some v)) = false := by simp [hfa, hne]
            rw [h1, h2]
            simp
          · by_cases hwv : w = v
            · subst hwv
              rw [List.indexOf_cons_self] at hlt
              exact absurd hlt (Nat.not_lt_zero _)
            · rw [List.indexOf_cons_ne _ (by exact hwu),
                List.indexOf_cons_ne _ (by exact hwv)] at hlt
              have hut : u ∈ t.filterMap f := by
                rcases List.mem_cons.mp hu with h | h
                · exact absurd h.symm hwu
                · exact h
              have hvt : v ∈ t.filterMap f := by
                rcases List.mem_cons.mp hv with h | h
                · exact absurd h.symm hwv
                · exact h
              rw [List.findIdx_cons, List.findIdx_cons]
              have h1 : (decide (f a = some u)) = false := by simp [hfa, hwu]
              have h2 : (decide (f a = some v)) = false := by simp [hfa, hwv]
              rw [h1, h2]
              simpa using ih hut hvt (Nat.lt_of_succ_lt_succ hlt)

theorem mem_countedUrls {u : String} {docs : List Doc} :
    u ∈ countedUrls docs ↔
      pyStartsWith u "http" = true ∧ ∃ d ∈ docs, effUrl d = u := by
  rw [countedUrls, List.mem_filterMap]
  constructor
  · rintro ⟨d, hd, hfd⟩
    by_cases h : pyStartsWith (effUrl d) "http" = true
    · rw [if_pos h] at hfd
      have heq : effUrl d = u := by simpa using hfd
      exact ⟨heq ▸ h, d, hd, heq⟩
    · rw [if_neg h] at hfd
      cases hfd
  · rintro ⟨hu, d, hd, hget⟩
    exact ⟨d, hd, by simp [hget, hu]⟩

theorem count_countedUrls_eq_specFreq {docs : List Doc} {u : String}
    (hsome : ∀ d ∈ docs, d.url.isSome = true)
    (hu : pyStartsWith u "http" = true) :
    (countedUrls docs).count u = specFreq docs u := by
  rw [countedUrls, List.count_filterMap, specFreq,
    ← List.countP_eq_length_filter]
  apply List.countP_congr
  intro d hd
  obtain ⟨w, hw⟩ := Option.isSome_iff_exists.mp (hsome d hd)
  have heff : effUrl d = w := by simp [effUrl, hw]
  rw [heff]
  constructor
  · intro h
    by_cases hc : pyStartsWith w "http" = true
    · rw [if_pos hc] at h
      have hwu : w = u := by simpa using h
      simp [hw, hwu]
    · rw [if_neg hc] at h
      simp at h
  · intro h
    have hwu : w = u := by simpa [hw] using h
    subst hwu
    simp [hu]

theorem findIdx_counted_eq_firstAppear {docs : List Doc} {w : String}
    (hsome : ∀ d ∈ docs, d.url.isSome = true)
    (hw : pyStartsWith w "http" = true) :
    docs.findIdx
        (fun d =>
          (if pyStartsWith (effUrl d) "http" then some (effUrl d) else none) =
            some w) =
      firstAppear docs w := by
  rw [firstAppear]
  apply findIdx_congr
  intro d hd
  obtain ⟨x, hx⟩ := Option.isSome_iff_exists.mp (hsome d hd)
  have heff : effUrl d = x := by simp [effUrl, hx]
  rw [decide_eq_decide, heff]
  constructor
  · intro h
    by_cases hc : pyStartsWith x "http" = true
    · rw [if_pos hc] at h
      have hxw : x = w := by simpa using h
      rw [hx, hxw]
    · rw [if_neg hc] at h
      cases h
  · intro h
    rw [hx] at h
    have hxw : x = w := by simpa using h
    subst hxw
    simp [hw]

theorem firstAppear_lt {docs : List Doc} {u v : String}
    (hsome : ∀ d ∈ docs, d.url.isSome = true)
    (hu : u ∈ countedUrls docs) (hv : v ∈ countedUrls docs)
    (hlt : (countedUrls docs).indexOf u < (countedUrls docs).indexOf v) :
    firstAppear docs u < firstAppear docs v := by
  have hus : pyStartsWith u "http" = true := (mem_countedUrls.mp hu).1
  have hvs : pyStartsWith v "http" = true := (mem_countedUrls.mp hv).1
  rw [countedUrls] at hu hv hlt
  have h := findIdx_filterMap_lt
    (fun d => if pyStartsWith (effUrl d) "http" then some (effUrl d) else none)
    docs u v hu hv hlt
  rwa [findIdx_counted_eq_firstAppear hsome hus,
    findIdx_counted_eq_firstAppear hsome hvs] at h

/-- C5: on any failure of the structured-generation call (single attempt,
`callResult = none`), `expand_query` returns, rather than raises, an
`ExpandedQueries` whose queries list is exactly `[originalQuery]`. -/
theorem c5_expansion_failure_fallback (q : String) :
    expand_query none q =
      { queries := [q],
        search_strategy := "Using original query due to expansion error" } := rfl

/-- C6: calling retrieval before the vector store is initialized returns the
explicit precondition error, for every query and argument; no similarity
search function is even available on this path. -/
theorem c6_retrieval_precondition (cfg : RagConfig)
    (callResult : Option ExpandedQueries) (q : String) (narg : Option Nat) :
    get_relevant_context cfg none callResult q narg =
      Except.error
        "Vector store not initialized. Call load_and_process_documents first." :=
  rfl

/-- C10: `num_chunks or config.rag.num_chunks` treats both `0` and `None`
as absent, so `retrieve(query, 0)`, `retrieve(query, None)` and
`retrieve(query, configuredNumChunks)` coincide. -/
theorem c10_num_chunks_default (cfg : RagConfig)
    (store : Option (String → Nat → List Doc))
    (callResult : Option ExpandedQueries) (q : String) :
    get_relevant_context cfg store callResult q (some 0) =
      get_relevant_context cfg store callResult q (some cfg.num_chunks) ∧
    get_relevant_context cfg store callResult q none =
      get_relevant_context cfg store callResult q (some 0) := by
  constructor <;> simp [get_relevant_context, retrievalPool, pyOrDefault]

/-- C4: if the expansion capability fails (`callResult = none`), retrieval
with expansion enabled returns exactly the same result as retrieval with
expansion disabled, for the same query, store and chunk count. -/
theorem c4_expansion_degradation (cfg : RagConfig)
    (search : String → Nat → List Doc) (q : String) (narg : Option Nat) :
    get_relevant_context { cfg with use_query_expansion := true }
        (some search) none q narg =
      get_relevant_context { cfg with use_query_expansion := false }
        (some search) none q narg := by
  simp [get_relevant_context, retrievalPool, activeQueries, expand_query,
    pooledDocs]

/-- C8: when the external load call on an existing store succeeds
(`loadFails = false`), ingestion always leaves a persisted store;
re-ingesting (any corpus) afterwards changes nothing; and when a persisted
store already exists the call only loads it into `vector_store`, writing
nothing.  (If the load raises, the code instead falls through to
`processAndPersist` — see the definition — which is why the successful
load outcome is pinned here.) -/
theorem c8_ingest_idempotent (cfg : RagConfig) (splitter : Doc → List Doc)
    (st : EngineState) (rows rows2 : List Row) :
    (load_and_process_documents cfg splitter false st rows).persisted.isSome =
      true ∧
    load_and_process_documents cfg splitter false
        (load_and_process_documents cfg splitter false st rows) rows2 =
      load_and_process_documents cfg splitter false st rows ∧
    ∀ s, st.persisted = some s →
      load_and_process_documents cfg splitter false st rows =
        { st with vector_store := some s } := by
  cases h : st.persisted <;>
    simp [load_and_process_documents, processAndPersist, h]

/-- C8 witness: a state with a persisted store is only loaded, not rebuilt. -/
theorem c8_ingest_idempotent_witness :
    load_and_process_documents ⟨5, 3, false, 400, 300⟩ (fun d => [d]) false
        ⟨some [Doc.mk "abc" (some "https://a")], none⟩ [] =
      ⟨some [Doc.mk "abc" (some "https://a")],
        some [Doc.mk "abc" (some "https://a")]⟩ :=
  (c8_ingest_idempotent ⟨5, 3, false, 400, 300⟩ (fun d => [d])
    ⟨some [Doc.mk "abc" (some "https://a")], none⟩ [] []).2.2
    [Doc.mk "abc" (some "https://a")] rfl

/-- C9 counterexample: a successful structured-generation call whose parsed
payload holds four queries is passed through unchanged, so the produced
`ExpandedQuerySet` violates the claimed 1–3 bound. -/
theorem c9_counterexample :
    (expand_query (some ⟨["a", "b", "c", "d"], "s"⟩) "q").queries.length = 4 ∧
    ¬((expand_query (some ⟨["a", "b", "c", "d"], "s"⟩) "q").queries.length ≤ 3) :=
  ⟨rfl, by decide⟩

/-- C9 amended: the fallback produces exactly one query, and a successful
call's parsed payload is returned unchanged — the 1–3 bound holds only when
the external capability itself returns 1–3 queries, the code enforces no
bound. -/
theorem c9_amended (q : String) (r : ExpandedQueries) :
    (expand_query none q).queries.length = 1 ∧ expand_query (some r) q = r :=
  ⟨rfl, rfl⟩

/-- C3 counterexample: a pooled result with missing URL metadata is not
skipped — it is counted under the default `"https://itmo.ru"`, which then
appears in the returned `sourceUrls`. -/
theorem c3_counterexample :
    get_relevant_context ⟨1, 3, false, 400, 300⟩
        (some fun _ _ => [Doc.mk "c" none]) none "q" none =
      Except.ok (["c"], ["https://itmo.ru"]) := rfl

/-- C1: the returned contexts are the pooled results deduplicated by exact
chunk text, first occurrence kept in pooled (query, then rank) order, then
truncated to the effective `numChunks`; so each distinct text appears at
most once, in first-seen order, and at most `numChunks` entries remain. -/
theorem c1_contexts_dedup (cfg : RagConfig)
    (search : String → Nat → List Doc) (callResult : Option ExpandedQueries)
    (q : String) (narg : Option Nat) (contexts urls : List String)
    (hok : get_relevant_context cfg (some search) callResult q narg =
      Except.ok (contexts, urls)) :
    contexts =
      (dedupKeepFirst
          ((retrievalPool cfg search callResult q narg).map
            Doc.page_content)).take (pyOrDefault narg cfg.num_chunks) ∧
    contexts.Nodup ∧
    contexts.length ≤ pyOrDefault narg cfg.num_chunks := by
  simp only [get_relevant_context, Except.ok.injEq, Prod.mk.injEq] at hok
  obtain ⟨hc, -⟩ := hok
  rw [← hc, List.map_take, map_page_content_uniqueDocs]
  refine ⟨rfl, ?_, ?_⟩
  · exact (List.take_sublist _ _).nodup (nodup_dedupKeepFirst _)
  · simp [List.length_take]

/-- C1 witness: a pool `A, B, A` with `numChunks = 2` yields contexts
`[A, B]`, first-seen deduplicated and truncated. -/
theorem c1_contexts_dedup_witness :
    (["A", "B"] : List String) =
      (dedupKeepFirst
          ((retrievalPool sampleCfg sampleSearch none "q" none).map
            Doc.page_content)).take (pyOrDefault none sampleCfg.num_chunks) ∧
    (["A", "B"] : List String).Nodup ∧
    (["A", "B"] : List String).length ≤ pyOrDefault none sampleCfg.num_chunks :=
  c1_contexts_dedup sampleCfg sampleSearch none "q" none ["A", "B"]
    ["https://a", "https://b", "https://c"] rfl

/-- C2: when every pooled result carries URL metadata, the returned
`sourceUrls` has at most `maxLinks` entries and is ordered by strictly
descending pooled frequency, with equal-frequency URLs ordered by their
first appearance in the pooled list. -/
theorem c2_url_ranking (cfg : RagConfig)
    (search : String → Nat → List Doc) (callResult : Option ExpandedQueries)
    (q : String) (narg : Option Nat) (contexts urls : List String)
    (hok : get_relevant_context cfg (some search) callResult q narg =
      Except.ok (contexts, urls))
    (hsome : ∀ d ∈ retrievalPool cfg search callResult q narg,
      d.url.isSome = true) :
    urls.length ≤ cfg.max_links ∧
    urls.Pairwise (fun u v =>
      specFreq (retrievalPool cfg search callResult q narg) v <
          specFreq (retrievalPool cfg search callResult q narg) u ∨
        (specFreq (retrievalPool cfg search callResult q narg) u =
            specFreq (retrievalPool cfg search callResult q narg) v ∧
          firstAppear (retrievalPool cfg search callResult q narg) u <
            firstAppear (retrievalPool cfg search callResult q narg) v)) := by
  simp only [get_relevant_context, Except.ok.injEq, Prod.mk.injEq] at hok
  obtain ⟨-, hu⟩ := hok
  rw [← hu]
  constructor
  · simp [List.length_take]
  · have hQ : (url_frequency (retrievalPool cfg search callResult q narg)).Pairwise
        (fun p p' =>
          (countedUrls (retrievalPool cfg search callResult q narg)).indexOf p.1 <
            (countedUrls (retrievalPool cfg search callResult q narg)).indexOf p'.1) := by
      have h1 := pairwise_indexOf_dedupKeepFirst
        (countedUrls (retrievalPool cfg search callResult q narg))
      rw [← map_fst_histoOf, ← url_frequency_eq_histo,
        List.pairwise_map] at h1
      exact h1
    have hR := pairwise_sortDescByCount _ hQ
    have hRt := hR.sublist (List.take_sublist cfg.max_links _)
    rw [List.pairwise_map]
    refine hRt.imp_of_mem ?_
    intro p p' hp hp' hRpp
    have hp1 : p ∈ url_frequency (retrievalPool cfg search callResult q narg) :=
      mem_sortDescByCount.mp ((List.take_sublist _ _).subset hp)
    have hp1' : p' ∈ url_frequency (retrievalPool cfg search callResult q narg) :=
      mem_sortDescByCount.mp ((List.take_sublist _ _).subset hp')
    have hkey : p.1 ∈ countedUrls (retrievalPool cfg search callResult q narg) := by
      have hm : p.1 ∈ (url_frequency (retrievalPool cfg search callResult q narg)).map
          Prod.fst := List.mem_map.mpr ⟨p, hp1, rfl⟩
      rw [url_frequency_eq_histo, map_fst_histoOf] at hm
      exact mem_dedupKeepFirst.mp hm
    have hkey' : p'.1 ∈ countedUrls (retrievalPool cfg search callResult q narg) := by
      have hm : p'.1 ∈ (url_frequency (retrievalPool cfg search callResult q narg)).map
          Prod.fst := List.mem_map.mpr ⟨p', hp1', rfl⟩
      rw [url_frequency_eq_histo, map_fst_histoOf] at hm
      exact mem_dedupKeepFirst.mp hm
    have hcnt : p.2 = specFreq (retrievalPool cfg search callResult q narg) p.1 := by
      rw [url_frequency_eq_histo] at hp1
      rw [count_histoOf hp1,
        count_countedUrls_eq_specFreq hsome (mem_countedUrls.mp hkey).1]
    have hcnt' : p'.2 = specFreq (retrievalPool cfg search callResult q narg) p'.1 := by
      rw [url_frequency_eq_histo] at hp1'
      rw [count_histoOf hp1',
        count_countedUrls_eq_specFreq hsome (mem_countedUrls.mp hkey').1]
    rcases hRpp with hlt | ⟨heq, hidx⟩
    · exact Or.inl (hcnt' ▸ hcnt ▸ hlt)
    · exact Or.inr ⟨hcnt ▸ hcnt' ▸ heq, firstAppear_lt hsome hkey hkey' hidx⟩

/-- C2 witness: a pool `(X, https://x), (Y, https://y), (Z, https://x)`
yields `sourceUrls = [https://x, https://y]` ordered by frequency 2 > 1. -/
theorem c2_url_ranking_witness :
    (["https://x", "https://y"] : List String).length ≤ sampleCfg.max_links ∧
    (["https://x", "https://y"] : List String).Pairwise (fun u v =>
      specFreq (retrievalPool sampleCfg sampleSearch2 none "q" none) v <
          specFreq (retrievalPool sampleCfg sampleSearch2 none "q" none) u ∨
        (specFreq (retrievalPool sampleCfg sampleSearch2 none "q" none) u =
            specFreq (retrievalPool sampleCfg sampleSearch2 none "q" none) v ∧
          firstAppear (retrievalPool sampleCfg sampleSearch2 none "q" none) u <
            firstAppear (retrievalPool sampleCfg sampleSearch2 none "q" none) v)) :=
  c2_url_ranking sampleCfg sampleSearch2 none "q" none ["X", "Y"]
    ["https://x", "https://y"] rfl (by decide)

/-- C3 amended: a pooled result is counted iff its effective URL — the url
metadata, defaulted to `"https://itmo.ru"` when missing — starts with
`"http"`; each counted URL's frequency is the number of pooled results whose
effective URL equals it (so missing-metadata results count toward the
default URL, and the check is a `"http"`-prefix test, not syntactic
absoluteness). -/
theorem c3_amended_url_counting (docs : List Doc) (u : String) :
    (u ∈ (url_frequency docs).map Prod.fst ↔
      (pyStartsWith u "http" = true ∧ ∃ d ∈ docs, effUrl d = u)) ∧
    ∀ c, (u, c) ∈ url_frequency docs →
      c = (docs.filter (fun d => effUrl d = u)).length := by
  constructor
  · rw [url_frequency_eq_histo, map_fst_histoOf]
    exact mem_dedupKeepFirst.trans mem_countedUrls
  · intro c hc
    rw [url_frequency_eq_histo] at hc
    have h1 : c = (countedUrls docs).count u := count_histoOf hc
    have hu : pyStartsWith u "http" = true := by
      have hm : u ∈ (histoOf (countedUrls docs)).map Prod.fst :=
        List.mem_map.mpr ⟨(u, c), hc, rfl⟩
      rw [map_fst_histoOf] at hm
      exact (mem_countedUrls.mp (mem_dedupKeepFirst.mp hm)).1
    rw [h1, countedUrls, List.count_filterMap, ← List.countP_eq_length_filter]
    apply List.countP_congr
    intro d hd
    by_cases hc2 : pyStartsWith (effUrl d) "http" = true
    · simp [hc2]
    · simp only [if_neg hc2]
      constructor
      · intro h
        simp at h
      · intro h
        have heq : effUrl d = u := of_decide_eq_true h
        exact absurd (heq ▸ hu) hc2

/-- C3 amended witness: in a pool with two missing-URL results and one
`https://a`, the default URL is a counted key with frequency 2. -/
theorem c3_amended_url_counting_witness :
    (("https://itmo.ru" ∈ (url_frequency sampleDocs3).map Prod.fst) ↔
      (pyStartsWith "https://itmo.ru" "http" = true ∧
        ∃ d ∈ sampleDocs3, effUrl d = "https://itmo.ru")) ∧
    (2 : Nat) =
      (sampleDocs3.filter (fun d => effUrl d = "https://itmo.ru")).length :=
  ⟨(c3_amended_url_counting sampleDocs3 "https://itmo.ru").1,
    (c3_amended_url_counting sampleDocs3 "https://itmo.ru").2 2 (by decide)⟩

/-- C7: every chunk persisted by a fresh ingestion run has text length at
least `minChunkLength` and derives — via the splitter — from a corpus row
whose content length is at least `minDocLength`. -/
theorem c7_chunk_invariants (cfg : RagConfig) (splitter : Doc → List Doc)
    (loadFails : Bool) (rows : List Row) (c : Doc)
    (hc : c ∈
      (load_and_process_documents cfg splitter loadFails ⟨none, none⟩
          rows).persisted.getD []) :
    cfg.min_chunk_length ≤ c.page_content.length ∧
    ∃ r ∈ rows, cfg.min_doc_length ≤ r.content.length ∧
      c ∈ splitter (Doc.mk r.content (some r.url)) := by
  simp only [load_and_process_documents, processAndPersist,
    Option.getD_some] at hc
  rw [List.mem_filter] at hc
  obtain ⟨hmem, hlen⟩ := hc
  refine ⟨of_decide_eq_true hlen, ?_⟩
  obtain ⟨d, hd, hcd⟩ := List.mem_flatMap.mp hmem
  obtain ⟨r, hr, rfl⟩ := List.mem_map.mp hd
  rw [List.mem_filter] at hr
  exact ⟨r, hr.1, of_decide_eq_true hr.2, hcd⟩

/-- C7 witness: with `minDocLength = 2`, `minChunkLength = 1` and an
identity splitter, the indexed chunk of row `("abcd", https://a)` satisfies
both bounds. -/
theorem c7_chunk_invariants_witness :
    (⟨5, 3, false, 2, 1⟩ : RagConfig).min_chunk_length ≤
      (Doc.mk "abcd" (some "https://a")).page_content.length ∧
    ∃ r ∈ [Row.mk "abcd" "https://a"],
      (⟨5, 3, false, 2, 1⟩ : RagConfig).min_doc_length ≤ r.content.length ∧
      Doc.mk "abcd" (some "https://a") ∈
        (fun d => [d]) (Doc.mk r.content (some r.url)) :=
  c7_chunk_invariants ⟨5, 3, false, 2, 1⟩ (fun d => [d]) false
    [Row.mk "abcd" "https://a"] (Doc.mk "abcd" (some "https://a")) (by decide)

end Rag
